import Mathlib

/-!
Shallow embedding of the process lifecycle manager of src/iplan_http_server.js
(the SART server, lines 1-246): the module-level runningProcesses map,
cleanupProcess, the POST /project/:id/run, POST /execution/:id/stop and
GET /processes handlers, the fixed 5-minute auto-cleanup timer scheduled by the
run handler, and the SIGTERM/SIGINT shutdown sweeps.

The server is single-threaded (Node event loop): each HTTP handler, stream
callback, timer firing and signal handler runs to completion before the next.
We model the server as a state machine whose events are exactly those callbacks,
with a step function produced by direct translation of each handler body.
JS Maps are embedded as association lists in insertion order with unique keys;
Map.set replaces in place or appends, Map.delete filters the key out,
Map.forEach visits entries in insertion order (an entry deleted while it is
being visited does not disturb the rest, which is the only deletion pattern the
source performs during iteration).

Kill signals sent to the OS (process.kill()) are recorded in a kill log so that
"the process is killed at most once" is a statement about the trace.
-/

/-- A child process handle as returned by spawn. The only field of the handle
this server ever reads is the `killed` flag, which Node sets to true once
kill() has been invoked on the handle. A freshly spawned handle has
`killed = false`. -/
structure ChildProcess where
  killed : Bool
deriving Repr, DecidableEq

/-- Association-list lookup, embedding JS `Map.prototype.get` (first match;
a JS Map has unique keys so this is the entry for the key when present). -/
def mapGet {α : Type} (i : String) : List (String × α) → Option α
  | [] => none
  | e :: rest => if e.1 = i then some e.2 else mapGet i rest

/-- Embedding of JS `Map.prototype.has`. -/
def mapHas {α : Type} (i : String) (l : List (String × α)) : Bool :=
  (mapGet i l).isSome

/-- Embedding of JS `Map.prototype.set`: update in place when the key exists,
otherwise append (JS Maps preserve insertion order). -/
def mapSet {α : Type} (i : String) (v : α) (l : List (String × α)) :
    List (String × α) :=
  if (mapGet i l).isSome then
    l.map (fun e => if e.1 = i then (i, v) else e)
  else l ++ [(i, v)]

/-- Embedding of JS `Map.prototype.delete`. -/
def mapDelete {α : Type} (i : String) (l : List (String × α)) :
    List (String × α) :=
  l.filter (fun e => decide (e.1 ≠ i))

/-- A `console.log` record produced by the close handler of
POST /project/:id/run (lines 189-194): the execution id, the exit code and the
accumulated output and errorOutput closure variables, logged to the server's
own log and not sent to any client. -/
structure CloseLogEntry where
  execId : String
  exitCode : Int
  output : String
  errorOutput : String
deriving Repr, DecidableEq

/-- The server state. `runningProcesses` is the module-level
`const runningProcesses = new Map()` (line 25). `outputs` holds each live
execution's closure-local `output`/`errorOutput` accumulators (lines 177-186).
`timers` holds the pending `setTimeout(... , 300000)` deadlines (absolute
milliseconds, lines 197-200), which the source never cancels. `now` is the
clock in milliseconds. `killLog` records, in order, the ids whose handle was
sent `process.kill()` (line 37). `serverLog` records the close handler's
`console.log` output. `hostExited` records `process.exit(0)` (line 240). -/
structure ServerState where
  runningProcesses : List (String × ChildProcess)
  outputs : List (String × (String × String))
  timers : List (String × Nat)
  now : Nat
  killLog : List String
  serverLog : List CloseLogEntry
  hostExited : Bool
deriving Repr, DecidableEq

/-- The state at server startup: empty map, no timers, nothing killed. -/
def initState : ServerState :=
  { runningProcesses := []
    outputs := []
    timers := []
    now := 0
    killLog := []
    serverLog := []
    hostExited := false }

/-- Embeds `cleanupProcess(id)` (lines 33-41):
if the map has the id, fetch the handle, call `process.kill()` when the handle
is not yet killed (recorded by appending the id to the kill log), then delete
the entry. An absent id is a complete no-op. -/
def cleanupProcess (i : String) (s : ServerState) : ServerState :=
  if mapHas i s.runningProcesses then
    let s1 :=
      match mapGet i s.runningProcesses with
      | some p => if !p.killed then { s with killLog := s.killLog ++ [i] } else s
      | none => s
    { s1 with runningProcesses := mapDelete i s1.runningProcesses }
  else s

/-- Calls `cleanupProcess` on each id in order: the body of the
SIGTERM/SIGINT `runningProcesses.forEach((proc, id) => cleanupProcess(id))`
sweeps (lines 230-241) and of firing a batch of due timers. -/
def foldCleanup (ids : List String) (s : ServerState) : ServerState :=
  ids.foldl (fun st i => cleanupProcess i st) s

/-- The auto-cleanup horizon of the run handler: `setTimeout(..., 300000)`,
five minutes in milliseconds (line 199). -/
def autoCleanupMs : Nat := 300000

/-- Derived status reported by GET /processes (line 224):
`runningProcesses.get(id).killed ? 'stopped' : 'running'`. -/
def statusOf (p : ChildProcess) : String :=
  if p.killed then "stopped" else "running"

/-- The GET /processes response body (lines 221-227): every key of the map,
paired with the status derived from the stored handle at query time. -/
def listProcesses (s : ServerState) : List (String × String) :=
  s.runningProcesses.map (fun pr => (pr.1, statusOf pr.2))

/-- The observable outcome of one event: the HTTP response a handler sends, or
`silent` for callbacks with no response (stream data, close, timers, signals). -/
inductive Response where
  | silent
  | runStarted (executionId : String) (message : String)
  | stopAck (message : String)
  | processList (entries : List (String × String))
deriving Repr, DecidableEq

/-- The events the Node runtime can dispatch to this server:
`run i cmd cwdValid` is POST /project/:pid/run minting fresh id `i` for command
`cmd`, with `cwdValid` recording whether the joined project path actually
exists (the handler never checks it; spawn returns a handle regardless and
reports a bad cwd only asynchronously, on an error event the handler does not
subscribe to); `stop i` is POST /execution/:i/stop; `stdoutData`/`stderrData`
are the stream callbacks (lines 180-186); `close` is the process close
callback; `elapse d` advances the clock by `d` ms and fires every due timer;
`sigterm`/`sigint` are the shutdown signal handlers; `list` is GET /processes. -/
inductive Event where
  | run (i : String) (cmd : String) (cwdValid : Bool)
  | stop (i : String)
  | stdoutData (i : String) (chunk : String)
  | stderrData (i : String) (chunk : String)
  | close (i : String) (code : Int)
  | elapse (d : Nat)
  | sigterm
  | sigint
  | list
deriving Repr, DecidableEq

/-- One step of the server: direct translation of each handler body.

run (lines 160-204): mint the id, respond `executionId`/`Command started`
immediately, spawn (unconditionally: a handle is produced and registered even
when the cwd is invalid), initialise the output accumulators, and schedule the
300000 ms auto-cleanup timer. The `cwdValid` flag is never consulted.

stop (lines 209-218): `cleanupProcess` then respond `Process stopped`.

stdoutData/stderrData: append the chunk to the matching accumulator.

close (lines 189-195): `cleanupProcess`, then `console.log` the exit code and
the accumulated output, which is thereafter discarded.

elapse: fire, in scheduling order, every timer whose deadline has passed; each
firing runs `cleanupProcess` (lines 197-200).

sigterm/sigint (lines 230-241): sweep `cleanupProcess` over every key; the
SIGINT handler then calls `process.exit(0)`. -/
def step (s : ServerState) (e : Event) : ServerState × Response :=
  match e with
  | .run i _ _ =>
      ({ s with
          runningProcesses := mapSet i ⟨false⟩ s.runningProcesses
          outputs := mapSet i ("", "") s.outputs
          timers := s.timers ++ [(i, s.now + autoCleanupMs)] },
        Response.runStarted i "Command started")
  | .stop i => (cleanupProcess i s, Response.stopAck "Process stopped")
  | .stdoutData i c =>
      match mapGet i s.outputs with
      | some oe => ({ s with outputs := mapSet i (oe.1 ++ c, oe.2) s.outputs },
          Response.silent)
      | none => (s, Response.silent)
  | .stderrData i c =>
      match mapGet i s.outputs with
      | some oe => ({ s with outputs := mapSet i (oe.1, oe.2 ++ c) s.outputs },
          Response.silent)
      | none => (s, Response.silent)
  | .close i code =>
      let oe := (mapGet i s.outputs).getD ("", "")
      let s1 := cleanupProcess i s
      ({ s1 with
          serverLog := s1.serverLog ++ [⟨i, code, oe.1, oe.2⟩]
          outputs := mapDelete i s1.outputs },
        Response.silent)
  | .elapse d =>
      let t := s.now + d
      let due := s.timers.filter (fun tm => decide (tm.2 ≤ t))
      let s1 := { s with
          now := t
          timers := s.timers.filter (fun tm => !decide (tm.2 ≤ t)) }
      (foldCleanup (due.map Prod.fst) s1, Response.silent)
  | .sigterm =>
      (foldCleanup (s.runningProcesses.map Prod.fst) s, Response.silent)
  | .sigint =>
      let s1 := foldCleanup (s.runningProcesses.map Prod.fst) s
      ({ s1 with hostExited := true }, Response.silent)
  | .list => (s, Response.processList (listProcesses s))

/-- Run a sequence of events, keeping the final state. -/
def steps (s : ServerState) (tr : List Event) : ServerState :=
  tr.foldl (fun st e => (step st e).1) s

/-- How many kill signals the process registered under `i` has received. -/
def killCount (i : String) (s : ServerState) : Nat :=
  s.killLog.count i

/-- `e` is the run event minting id `i` (the only event that can register `i`). -/
def isRunOf (i : String) : Event → Bool
  | .run j _ _ => j == i
  | _ => false

/-- `e` is an event that creates, appends to, or discards the output
accumulators of execution `i` (spawn initialisation, the stream callbacks,
and the close handler's discard). -/
def touchesOutputs (i : String) : Event → Bool
  | .run j _ _ => j == i
  | .stdoutData j _ => j == i
  | .stderrData j _ => j == i
  | .close j _ => j == i
  | _ => false

/-! ### Association-list (JS Map) lemmas -/

/-- A key absent from every entry looks up to nothing. -/
theorem mapGet_eq_none {α : Type} {i : String} {l : List (String × α)}
    (h : ∀ e ∈ l, e.1 ≠ i) : mapGet i l = none := by
  induction l with
  | nil => rfl
  | cons e rest ih =>
      simp only [mapGet]
      rw [if_neg (h e (by simp))]
      exact ih (fun x hx => h x (by simp [hx]))

/-- A failed lookup means no entry carries the key. -/
theorem mapGet_none_forall {α : Type} {i : String} {l : List (String × α)}
    (h : mapGet i l = none) : ∀ e ∈ l, e.1 ≠ i := by
  induction l with
  | nil => simp
  | cons e rest ih =>
      intro x hx
      simp only [mapGet] at h
      by_cases he : e.1 = i
      · rw [if_pos he] at h
        exact absurd h (by simp)
      · rw [if_neg he] at h
        rcases List.mem_cons.mp hx with hx | hx
        · rw [hx]; exact he
        · exact ih h x hx

/-- A successful lookup exhibits a member of the list. -/
theorem mapGet_mem {α : Type} {i : String} {l : List (String × α)} {v : α}
    (h : mapGet i l = some v) : (i, v) ∈ l := by
  induction l with
  | nil => simp [mapGet] at h
  | cons e rest ih =>
      simp only [mapGet] at h
      by_cases he : e.1 = i
      · rw [if_pos he] at h
        have hv : e.2 = v := by injection h
        have : (i, v) = e := by
          obtain ⟨a, b⟩ := e
          simp only at he hv
          rw [he, hv]
        rw [this]
        exact List.mem_cons_self e rest
      · rw [if_neg he] at h
        exact List.mem_cons_of_mem e (ih h)

/-- Filtering with a predicate that keeps every entry carrying key `i`
does not change the lookup of `i`. -/
theorem mapGet_filter_keep {α : Type} {i : String} {l : List (String × α)}
    {p : String × α → Bool} (hp : ∀ e, e.1 = i → p e = true) :
    mapGet i (l.filter p) = mapGet i l := by
  induction l with
  | nil => rfl
  | cons e rest ih =>
      by_cases he : e.1 = i
      · rw [List.filter_cons_of_pos (hp e he)]
        simp only [mapGet, if_pos he]
      · rcases hpe : p e with _ | _
        · rw [List.filter_cons_of_neg (by simp [hpe])]
          rw [ih]
          simp only [mapGet, if_neg he]
        · rw [List.filter_cons_of_pos hpe]
          simp only [mapGet, if_neg he]
          exact ih

/-- Deleting a different key does not change the lookup of `i`. -/
theorem mapGet_delete_ne {α : Type} {i j : String} (l : List (String × α))
    (h : j ≠ i) : mapGet i (mapDelete j l) = mapGet i l := by
  unfold mapDelete
  apply mapGet_filter_keep
  intro e he
  have hne : e.1 ≠ j := by
    rw [he]
    exact fun hc => h hc.symm
  simp [hne]

/-- Deleting a key removes it from the map. -/
theorem mapGet_delete_self {α : Type} (i : String) (l : List (String × α)) :
    mapGet i (mapDelete i l) = none := by
  apply mapGet_eq_none
  intro e he
  have := (List.mem_filter.mp he).2
  simpa using this

/-- A lookup ignores a prefix that does not carry the key. -/
theorem mapGet_append_none {α : Type} {i : String} {l1 : List (String × α)}
    (l2 : List (String × α)) (h : mapGet i l1 = none) :
    mapGet i (l1 ++ l2) = mapGet i l2 := by
  induction l1 with
  | nil => rfl
  | cons e rest ih =>
      simp only [mapGet] at h
      by_cases he : e.1 = i
      · rw [if_pos he] at h
        exact absurd h (by simp)
      · rw [if_neg he] at h
        simp only [List.cons_append, mapGet, if_neg he]
        exact ih h

/-- When the key is present, the in-place update of `mapSet` makes it look up
to the new value. -/
theorem mapGet_map_set {α : Type} (i : String) (v : α) :
    ∀ l : List (String × α), (mapGet i l).isSome = true →
      mapGet i (l.map (fun e => if e.1 = i then (i, v) else e)) = some v := by
  intro l
  induction l with
  | nil => intro hs; simp [mapGet] at hs
  | cons e rest ih =>
      intro hs
      by_cases he : e.1 = i
      · simp [List.map_cons, if_pos he, mapGet]
      · simp only [mapGet, if_neg he] at hs
        simp only [List.map_cons, if_neg he, mapGet]
        exact ih hs

/-- The in-place update of a different key does not change the lookup of `i`. -/
theorem mapGet_map_set_ne {α : Type} {i j : String} (v : α) (h : j ≠ i) :
    ∀ l : List (String × α),
      mapGet i (l.map (fun e => if e.1 = j then (j, v) else e)) = mapGet i l := by
  intro l
  induction l with
  | nil => rfl
  | cons e rest ih =>
      by_cases he : e.1 = j
      · simp only [List.map_cons, if_pos he]
        simp only [mapGet]
        rw [if_neg (show ¬(j, v).1 = i from h), if_neg (show ¬e.1 = i from
          fun hc => h (he.symm.trans hc))]
        exact ih
      · simp only [List.map_cons, if_neg he, mapGet]
        by_cases hei : e.1 = i
        · rw [if_pos hei, if_pos hei]
        · rw [if_neg hei, if_neg hei]
          exact ih

/-- Appending an entry with a different key does not change the lookup of `i`. -/
theorem mapGet_append_single_ne {α : Type} {i j : String} (v : α) (h : j ≠ i) :
    ∀ l : List (String × α), mapGet i (l ++ [(j, v)]) = mapGet i l := by
  intro l
  induction l with
  | nil =>
      simp only [List.nil_append, mapGet]
      rw [if_neg (show ¬(j, v).1 = i from h)]
  | cons e rest ih =>
      simp only [List.cons_append, mapGet]
      by_cases hei : e.1 = i
      · rw [if_pos hei, if_pos hei]
      · rw [if_neg hei, if_neg hei]
        exact ih

/-- Setting a key makes it look up to the new value. -/
theorem mapGet_set_self {α : Type} (i : String) (v : α) (l : List (String × α)) :
    mapGet i (mapSet i v l) = some v := by
  unfold mapSet
  by_cases hs : (mapGet i l).isSome
  · rw [if_pos hs]
    exact mapGet_map_set i v l hs
  · rw [if_neg hs]
    have hn : mapGet i l = none := by
      rcases hg : mapGet i l with _ | w
      · rfl
      · rw [hg] at hs; simp at hs
    rw [mapGet_append_none _ hn]
    simp [mapGet]

/-- Setting a different key does not change the lookup of `i`. -/
theorem mapGet_set_ne {α : Type} {i j : String} (v : α) (l : List (String × α))
    (h : j ≠ i) : mapGet i (mapSet j v l) = mapGet i l := by
  unfold mapSet
  by_cases hs : (mapGet j l).isSome
  · rw [if_pos hs]
    exact mapGet_map_set_ne v h l
  · rw [if_neg hs]
    exact mapGet_append_single_ne v h l

/-- The pair written by a set is a member of the resulting map. -/
theorem mem_mapSet_self {α : Type} (i : String) (v : α) (l : List (String × α)) :
    (i, v) ∈ mapSet i v l :=
  mapGet_mem (mapGet_set_self i v l)

/-! ### cleanupProcess lemmas -/

/-- Whatever branch `cleanupProcess` takes, the registry effect is exactly the
deletion of the key (deleting an absent key changes nothing). -/
theorem cleanup_registry (i : String) (s : ServerState) :
    (cleanupProcess i s).runningProcesses = mapDelete i s.runningProcesses := by
  unfold cleanupProcess
  rcases hg : mapGet i s.runningProcesses with _ | p
  · have hh : mapHas i s.runningProcesses = false := by simp [mapHas, hg]
    rw [if_neg (by simp [hh])]
    unfold mapDelete
    symm
    rw [List.filter_eq_self]
    intro e he
    simp [mapGet_none_forall hg e he]
  · have hh : mapHas i s.runningProcesses := by simp [mapHas, hg]
    rw [if_pos hh]
    simp only [hg]
    by_cases hk : p.killed <;> simp [hk]

/-- `cleanupProcess` leaves the output accumulators untouched. -/
theorem cleanup_outputs (i : String) (s : ServerState) :
    (cleanupProcess i s).outputs = s.outputs := by
  unfold cleanupProcess
  split
  · split
    · split <;> rfl
    · rfl
  · rfl

/-- `cleanupProcess` leaves the timers untouched (the source never cancels a
pending auto-cleanup timer). -/
theorem cleanup_timers (i : String) (s : ServerState) :
    (cleanupProcess i s).timers = s.timers := by
  unfold cleanupProcess
  split
  · split
    · split <;> rfl
    · rfl
  · rfl

/-- `cleanupProcess` does not read or advance the clock. -/
theorem cleanup_now (i : String) (s : ServerState) :
    (cleanupProcess i s).now = s.now := by
  unfold cleanupProcess
  split
  · split
    · split <;> rfl
    · rfl
  · rfl

/-- `cleanupProcess` writes nothing to the server log. -/
theorem cleanup_serverLog (i : String) (s : ServerState) :
    (cleanupProcess i s).serverLog = s.serverLog := by
  unfold cleanupProcess
  split
  · split
    · split <;> rfl
    · rfl
  · rfl

/-- `cleanupProcess` does not exit the host. -/
theorem cleanup_hostExited (i : String) (s : ServerState) :
    (cleanupProcess i s).hostExited = s.hostExited := by
  unfold cleanupProcess
  split
  · split
    · split <;> rfl
    · rfl
  · rfl

/-- The kill log after a cleanup: unchanged, or extended with exactly the one
cleaned-up id. -/
theorem cleanup_killLog_cases (i : String) (s : ServerState) :
    (cleanupProcess i s).killLog = s.killLog ∨
      (cleanupProcess i s).killLog = s.killLog ++ [i] := by
  unfold cleanupProcess
  split
  · split
    · split
      · right; rfl
      · left; rfl
    · left; rfl
  · left; rfl

/-- Cleaning up an id that is not in the map is a complete no-op. -/
theorem cleanup_noop (i : String) (s : ServerState)
    (h : mapHas i s.runningProcesses = false) : cleanupProcess i s = s := by
  unfold cleanupProcess
  rw [if_neg (by simp [h])]

/-- When the id is registered and its handle is not yet killed, cleanup sends
exactly one kill signal to it. -/
theorem cleanup_kills (i : String) (s : ServerState) {p : ChildProcess}
    (hg : mapGet i s.runningProcesses = some p) (hk : p.killed = false) :
    (cleanupProcess i s).killLog = s.killLog ++ [i] := by
  unfold cleanupProcess
  rw [if_pos (by simp [mapHas, hg])]
  simp [hg, hk]

/-- When the id is registered but its handle already reports killed, cleanup
sends no further kill signal. -/
theorem cleanup_killed_no_kill (i : String) (s : ServerState) {p : ChildProcess}
    (hg : mapGet i s.runningProcesses = some p) (hk : p.killed = true) :
    (cleanupProcess i s).killLog = s.killLog := by
  unfold cleanupProcess
  rw [if_pos (by simp [mapHas, hg])]
  simp [hg, hk]

/-- Cleaning up one id never touches the kill count of another. -/
theorem killCount_cleanup_ne {i j : String} (s : ServerState) (h : i ≠ j) :
    killCount j (cleanupProcess i s) = killCount j s := by
  rcases cleanup_killLog_cases i s with hc | hc <;> unfold killCount <;> rw [hc]
  rw [List.count_append]
  simp [List.count_singleton', h]

/-- Kill-log membership is monotone under cleanup. -/
theorem killLog_mem_cleanup {a : String} (i : String) (s : ServerState)
    (h : a ∈ s.killLog) : a ∈ (cleanupProcess i s).killLog := by
  rcases cleanup_killLog_cases i s with hc | hc <;> rw [hc]
  · exact h
  · exact List.mem_append_left _ h

/-- Cleanup never unregisters-then-reregisters: after `cleanupProcess i`,
the id `i` is gone from the map. -/
theorem cleanup_removes (i : String) (s : ServerState) :
    mapGet i (cleanupProcess i s).runningProcesses = none := by
  rw [cleanup_registry]
  exact mapGet_delete_self i s.runningProcesses

/-- Cleanup of one id does not change the lookup of another. -/
theorem cleanup_mapGet_ne {i j : String} (s : ServerState) (h : i ≠ j) :
    mapGet j (cleanupProcess i s).runningProcesses =
      mapGet j s.runningProcesses := by
  rw [cleanup_registry]
  exact mapGet_delete_ne s.runningProcesses h

/-! ### foldCleanup lemmas -/

theorem foldCleanup_nil (s : ServerState) : foldCleanup [] s = s := rfl

theorem foldCleanup_cons (i : String) (ids : List String) (s : ServerState) :
    foldCleanup (i :: ids) s = foldCleanup ids (cleanupProcess i s) := rfl

/-- Sweeping cleanup over a list of ids removes exactly those ids from the
registry and nothing else, in one pass. -/
theorem foldCleanup_registry (ids : List String) (s : ServerState) :
    (foldCleanup ids s).runningProcesses =
      s.runningProcesses.filter (fun e => decide (e.1 ∉ ids)) := by
  induction ids generalizing s with
  | nil => simp [foldCleanup]
  | cons j ids ih =>
      rw [foldCleanup_cons, ih, cleanup_registry]
      unfold mapDelete
      rw [List.filter_filter]
      apply List.filter_congr
      intro e _
      by_cases h1 : e.1 = j
      · simp [h1]
      · by_cases h2 : e.1 ∈ ids <;> simp [h1, h2]

/-- The sweep leaves the output accumulators untouched. -/
theorem foldCleanup_outputs (ids : List String) (s : ServerState) :
    (foldCleanup ids s).outputs = s.outputs := by
  induction ids generalizing s with
  | nil => rfl
  | cons j ids ih => rw [foldCleanup_cons, ih, cleanup_outputs]

/-- The sweep leaves the timers untouched. -/
theorem foldCleanup_timers (ids : List String) (s : ServerState) :
    (foldCleanup ids s).timers = s.timers := by
  induction ids generalizing s with
  | nil => rfl
  | cons j ids ih => rw [foldCleanup_cons, ih, cleanup_timers]

/-- The sweep leaves the server log untouched. -/
theorem foldCleanup_serverLog (ids : List String) (s : ServerState) :
    (foldCleanup ids s).serverLog = s.serverLog := by
  induction ids generalizing s with
  | nil => rfl
  | cons j ids ih => rw [foldCleanup_cons, ih, cleanup_serverLog]

/-- Kill-log membership is monotone under the sweep. -/
theorem killLog_mem_foldCleanup {a : String} (ids : List String)
    (s : ServerState) (h : a ∈ s.killLog) :
    a ∈ (foldCleanup ids s).killLog := by
  induction ids generalizing s with
  | nil => exact h
  | cons j ids ih =>
      rw [foldCleanup_cons]
      exact ih _ (killLog_mem_cleanup j s h)

/-- Sweeping over a list that contains a registered, not-yet-killed id sends
that id a kill signal. -/
theorem foldCleanup_kills {i : String} (ids : List String) (s : ServerState)
    {p : ChildProcess} (hmem : i ∈ ids)
    (hg : mapGet i s.runningProcesses = some p) (hk : p.killed = false) :
    i ∈ (foldCleanup ids s).killLog := by
  induction ids generalizing s with
  | nil => simp at hmem
  | cons j ids ih =>
      rw [foldCleanup_cons]
      by_cases hj : j = i
      · subst hj
        have hlog := cleanup_kills j s hg hk
        exact killLog_mem_foldCleanup ids _ (by rw [hlog]; simp)
      · have hmem' : i ∈ ids := by
          rcases List.mem_cons.mp hmem with h | h
          · exact absurd h.symm hj
          · exact h
        exact ih _ hmem' (by rw [cleanup_mapGet_ne s hj]; exact hg)

/-! ### Kill-at-most-once invariant -/

/-- The invariant behind "the process is killed at most once": a registered id
has received no kill signal yet, and no id ever receives more than one. -/
def KillInv (i : String) (s : ServerState) : Prop :=
  (mapHas i s.runningProcesses = true → killCount i s = 0) ∧ killCount i s ≤ 1

instance (i : String) (s : ServerState) : Decidable (KillInv i s) := by
  unfold KillInv
  infer_instance

/-- `KillInv` only looks at the lookup of `i` and the kill log. -/
theorem KillInv_congr {i : String} {s s' : ServerState}
    (hreg : mapGet i s'.runningProcesses = mapGet i s.runningProcesses)
    (hlog : s'.killLog = s.killLog) (h : KillInv i s) : KillInv i s' := by
  unfold KillInv killCount mapHas at h ⊢
  rw [hlog, hreg]
  exact h

/-- `cleanupProcess` preserves the invariant, whichever id it cleans. -/
theorem KillInv_cleanup {i : String} (j : String) {s : ServerState}
    (h : KillInv i s) : KillInv i (cleanupProcess j s) := by
  by_cases hij : j = i
  · subst hij
    rcases hg : mapGet j s.runningProcesses with _ | p
    · rw [cleanup_noop j s (by simp [mapHas, hg])]
      exact h
    · constructor
      · intro hh
        rw [mapHas, cleanup_removes] at hh
        simp at hh
      · by_cases hk : p.killed
        · unfold killCount
          rw [cleanup_killed_no_kill j s hg hk]
          exact h.2
        · unfold killCount
          rw [cleanup_kills j s hg (by simpa using hk), List.count_append]
          have h0 : killCount j s = 0 := h.1 (by simp [mapHas, hg])
          unfold killCount at h0
          rw [h0]
          simp [List.count_singleton']
  · constructor
    · intro hh
      rw [mapHas, cleanup_mapGet_ne s hij] at hh
      rw [killCount_cleanup_ne s hij]
      exact h.1 hh
    · rw [killCount_cleanup_ne s hij]
      exact h.2

/-- The shutdown/timer sweep preserves the invariant. -/
theorem KillInv_foldCleanup {i : String} (ids : List String) {s : ServerState}
    (h : KillInv i s) : KillInv i (foldCleanup ids s) := by
  induction ids generalizing s with
  | nil => exact h
  | cons j ids ih =>
      rw [foldCleanup_cons]
      exact ih (KillInv_cleanup j h)

/-- Every event other than a run request minting `i` itself preserves the
invariant for `i`. -/
theorem KillInv_step {i : String} {s : ServerState} (e : Event)
    (he : isRunOf i e = false) (h : KillInv i s) : KillInv i (step s e).1 := by
  cases e with
  | run j cmd v =>
      have hji : j ≠ i := by
        intro hc
        simp [isRunOf, hc] at he
      exact KillInv_congr (mapGet_set_ne _ _ hji) rfl h
  | stop j => exact KillInv_cleanup j h
  | stdoutData j c =>
      rcases hg : mapGet j s.outputs with _ | oe
      · have hst : (step s (Event.stdoutData j c)).1 = s := by
          simp [step, hg]
        rw [hst]
        exact h
      · have hst : (step s (Event.stdoutData j c)).1 =
            { s with outputs := mapSet j (oe.1 ++ c, oe.2) s.outputs } := by
          simp [step, hg]
        rw [hst]
        exact KillInv_congr rfl rfl h
  | stderrData j c =>
      rcases hg : mapGet j s.outputs with _ | oe
      · have hst : (step s (Event.stderrData j c)).1 = s := by
          simp [step, hg]
        rw [hst]
        exact h
      · have hst : (step s (Event.stderrData j c)).1 =
            { s with outputs := mapSet j (oe.1, oe.2 ++ c) s.outputs } := by
          simp [step, hg]
        rw [hst]
        exact KillInv_congr rfl rfl h
  | close j code => exact KillInv_congr rfl rfl (KillInv_cleanup j h)
  | elapse d => exact KillInv_congr rfl rfl (KillInv_foldCleanup _ h)
  | sigterm => exact KillInv_foldCleanup _ h
  | sigint => exact KillInv_congr rfl rfl (KillInv_foldCleanup _ h)
  | list => exact h

theorem steps_nil (s : ServerState) : steps s [] = s := rfl

theorem steps_cons (s : ServerState) (e : Event) (tr : List Event) :
    steps s (e :: tr) = steps (step s e).1 tr := rfl

/-- The invariant holds along any trace that never re-mints the id. -/
theorem KillInv_steps {i : String} {s : ServerState} (tr : List Event)
    (htr : ∀ e ∈ tr, isRunOf i e = false) (h : KillInv i s) :
    KillInv i (steps s tr) := by
  induction tr generalizing s with
  | nil => exact h
  | cons e tr ih =>
      rw [steps_cons]
      exact ih (fun x hx => htr x (List.mem_cons_of_mem e hx))
        (KillInv_step e (htr e (List.mem_cons_self e tr)) h)

/-! ### Absence preservation and the no-zombie registry invariant -/

/-- Cleanup never introduces an id: an absent id stays absent. -/
theorem absent_cleanup {i : String} (j : String) {s : ServerState}
    (h : mapGet i s.runningProcesses = none) :
    mapGet i (cleanupProcess j s).runningProcesses = none := by
  by_cases hij : j = i
  · subst hij
    exact cleanup_removes j s
  · rw [cleanup_mapGet_ne s hij]
    exact h

/-- The sweep never introduces an id. -/
theorem absent_foldCleanup {i : String} (ids : List String) {s : ServerState}
    (h : mapGet i s.runningProcesses = none) :
    mapGet i (foldCleanup ids s).runningProcesses = none := by
  induction ids generalizing s with
  | nil => exact h
  | cons j ids ih =>
      rw [foldCleanup_cons]
      exact ih (absent_cleanup j h)

/-- No event except the run request that mints exactly `i` ever registers `i`:
an id absent from the registry stays absent. -/
theorem absent_step {i : String} {s : ServerState} (e : Event)
    (he : isRunOf i e = false) (h : mapGet i s.runningProcesses = none) :
    mapGet i ((step s e).1).runningProcesses = none := by
  cases e with
  | run j cmd v =>
      have hji : j ≠ i := by
        intro hc
        simp [isRunOf, hc] at he
      show mapGet i (mapSet j ⟨false⟩ s.runningProcesses) = none
      rw [mapGet_set_ne _ _ hji]
      exact h
  | stop j => exact absent_cleanup j h
  | stdoutData j c =>
      rcases hg : mapGet j s.outputs with _ | oe <;> simp [step, hg] <;> exact h
  | stderrData j c =>
      rcases hg : mapGet j s.outputs with _ | oe <;> simp [step, hg] <;> exact h
  | close j code =>
      show mapGet i (cleanupProcess j s).runningProcesses = none
      exact absent_cleanup j h
  | elapse d => exact absent_foldCleanup _ h
  | sigterm => exact absent_foldCleanup _ h
  | sigint => exact absent_foldCleanup _ h
  | list => exact h

/-- The no-zombie invariant: every handle present in the registry is alive
(never yet killed) — a killed handle is deleted in the same cleanup that
killed it, so it can never linger registered. -/
def RegInv (s : ServerState) : Prop :=
  ∀ pr ∈ s.runningProcesses, pr.2.killed = false

theorem RegInv_cleanup (j : String) {s : ServerState} (h : RegInv s) :
    RegInv (cleanupProcess j s) := by
  intro pr hm
  rw [cleanup_registry] at hm
  exact h pr (List.mem_filter.mp hm).1

theorem RegInv_foldCleanup (ids : List String) {s : ServerState}
    (h : RegInv s) : RegInv (foldCleanup ids s) := by
  induction ids generalizing s with
  | nil => exact h
  | cons j ids ih =>
      rw [foldCleanup_cons]
      exact ih (RegInv_cleanup j h)

/-- Registering a fresh spawn preserves the invariant: the new handle reports
`killed = false`. -/
theorem RegInv_mapSet_false {s : ServerState} (i : String) (h : RegInv s) :
    ∀ pr ∈ mapSet i (⟨false⟩ : ChildProcess) s.runningProcesses,
      pr.2.killed = false := by
  intro pr hm
  unfold mapSet at hm
  by_cases hs : (mapGet i s.runningProcesses).isSome
  · rw [if_pos hs] at hm
    rcases List.mem_map.mp hm with ⟨e, hme, hfe⟩
    by_cases he : e.1 = i
    · rw [if_pos he] at hfe
      rw [← hfe]
    · rw [if_neg he] at hfe
      rw [← hfe]
      exact h e hme
  · rw [if_neg hs] at hm
    rcases List.mem_append.mp hm with hm | hm
    · exact h pr hm
    · rw [List.mem_singleton.mp hm]

theorem RegInv_step {s : ServerState} (e : Event) (h : RegInv s) :
    RegInv (step s e).1 := by
  cases e with
  | run j cmd v => exact RegInv_mapSet_false j h
  | stop j => exact RegInv_cleanup j h
  | stdoutData j c =>
      rcases hg : mapGet j s.outputs with _ | oe <;>
        simp only [step, hg] <;> exact h
  | stderrData j c =>
      rcases hg : mapGet j s.outputs with _ | oe <;>
        simp only [step, hg] <;> exact h
  | close j code =>
      intro pr hm
      exact RegInv_cleanup j h pr hm
  | elapse d => exact RegInv_foldCleanup _ h
  | sigterm => exact RegInv_foldCleanup _ h
  | sigint =>
      intro pr hm
      exact RegInv_foldCleanup _ h pr hm
  | list => exact h

theorem RegInv_steps (tr : List Event) {s : ServerState} (h : RegInv s) :
    RegInv (steps s tr) := by
  induction tr generalizing s with
  | nil => exact h
  | cons e tr ih =>
      rw [steps_cons]
      exact ih (RegInv_step e h)

/-! ### Output accumulator lemmas -/

/-- The stdout stream callback appends the chunk, in arrival order, to the
existing accumulator of exactly that execution. -/
theorem stdout_append {s : ServerState} {i c o er : String}
    (hg : mapGet i s.outputs = some (o, er)) :
    mapGet i ((step s (Event.stdoutData i c)).1).outputs = some (o ++ c, er) := by
  simp only [step, hg]
  exact mapGet_set_self i (o ++ c, er) s.outputs

/-- Any event that is not the spawn, a stream callback, or the close handler
of execution `i` leaves its output accumulator untouched. -/
theorem outputs_untouched {i : String} {s : ServerState} (e : Event)
    (he : touchesOutputs i e = false) :
    mapGet i ((step s e).1).outputs = mapGet i s.outputs := by
  cases e with
  | run j cmd v =>
      have hji : j ≠ i := by
        intro hc
        simp [touchesOutputs, hc] at he
      exact mapGet_set_ne _ _ hji
  | stop j =>
      show mapGet i (cleanupProcess j s).outputs = mapGet i s.outputs
      rw [cleanup_outputs]
  | stdoutData j c =>
      have hji : j ≠ i := by
        intro hc
        simp [touchesOutputs, hc] at he
      rcases hg : mapGet j s.outputs with _ | oe
      · simp [step, hg]
      · simp only [step, hg]
        exact mapGet_set_ne _ _ hji
  | stderrData j c =>
      have hji : j ≠ i := by
        intro hc
        simp [touchesOutputs, hc] at he
      rcases hg : mapGet j s.outputs with _ | oe
      · simp [step, hg]
      · simp only [step, hg]
        exact mapGet_set_ne _ _ hji
  | close j code =>
      have hji : j ≠ i := by
        intro hc
        simp [touchesOutputs, hc] at he
      show mapGet i (mapDelete j (cleanupProcess j s).outputs) = mapGet i s.outputs
      rw [mapGet_delete_ne _ hji, cleanup_outputs]
  | elapse d =>
      show mapGet i (foldCleanup _ _).outputs = mapGet i s.outputs
      rw [foldCleanup_outputs]
  | sigterm =>
      show mapGet i (foldCleanup _ _).outputs = mapGet i s.outputs
      rw [foldCleanup_outputs]
  | sigint =>
      show mapGet i (foldCleanup _ _).outputs = mapGet i s.outputs
      rw [foldCleanup_outputs]
  | list => rfl

/-- Folding a whole sequence of stdout chunks accumulates their concatenation,
in order. -/
theorem stdout_chunks {i : String} (cs : List String) :
    ∀ (s : ServerState) (o er : String), mapGet i s.outputs = some (o, er) →
      mapGet i ((steps s (cs.map (fun c => Event.stdoutData i c))).outputs) =
        some (cs.foldl (fun a b => a ++ b) o, er) := by
  induction cs with
  | nil => intro s o er hg; exact hg
  | cons c cs ih =>
      intro s o er hg
      rw [List.map_cons, steps_cons]
      exact ih _ (o ++ c) er (stdout_append hg)

/-! ### Claim theorems -/

/-- C1: Stop is idempotent: for every execution id, including ids never issued
and ids already removed from the registry, the stop handler responds success
(`Process stopped`); on an absent id it has no side effects at all; calling
stop twice in a row produces the same observable result both times (the second
stop returns the same success response and leaves the state exactly as after
the first); and across any sequence of teardown events that never re-mints the
id, the underlying process is sent a kill signal at most once. -/
theorem claim_C1_stop_idempotent :
    (∀ (s : ServerState) (i : String),
      (step s (Event.stop i)).2 = Response.stopAck "Process stopped") ∧
    (∀ (s : ServerState) (i : String), mapHas i s.runningProcesses = false →
      (step s (Event.stop i)).1 = s) ∧
    (∀ (s : ServerState) (i : String),
      step (step s (Event.stop i)).1 (Event.stop i) =
        ((step s (Event.stop i)).1, Response.stopAck "Process stopped")) ∧
    (∀ (s : ServerState) (i : String) (tr : List Event), KillInv i s →
      (∀ e ∈ tr, isRunOf i e = false) → killCount i (steps s tr) ≤ 1) := by
  refine ⟨fun s i => rfl, fun s i h => cleanup_noop i s h, ?_, ?_⟩
  · intro s i
    have h2 : mapHas i ((step s (Event.stop i)).1).runningProcesses = false := by
      show mapHas i (cleanupProcess i s).runningProcesses = false
      rw [mapHas, cleanup_removes]
      rfl
    show (cleanupProcess i (step s (Event.stop i)).1, Response.stopAck "Process stopped") = _
    rw [cleanup_noop i _ h2]
  · intro s i tr h htr
    exact (KillInv_steps tr htr h).2

/-- C1 witness: stopping a never-issued id on the fresh server succeeds with no
side effects, and a registration followed by two stops and the timeout horizon
kills the process at most once. -/
theorem claim_C1_stop_idempotent_witness :
    (step initState (Event.stop "a")).2 = Response.stopAck "Process stopped" ∧
    (step initState (Event.stop "a")).1 = initState ∧
    killCount "a" (steps (step initState (Event.run "a" "x" true)).1
      [Event.stop "a", Event.stop "a", Event.elapse autoCleanupMs]) ≤ 1 :=
  ⟨claim_C1_stop_idempotent.1 initState "a",
    claim_C1_stop_idempotent.2.1 initState "a" (by decide),
    claim_C1_stop_idempotent.2.2.2 _ "a" _ (by decide) (by decide)⟩

/-- C2 counterexample: starting a run whose working directory is invalid does
NOT fail synchronously: at the concrete input (fresh server, command "x",
invalid cwd) the handler still responds with the execution id and a success
message, and the execution id IS registered in the registry. -/
theorem claim_C2_counterexample :
    (step initState (Event.run "a" "x" false)).2 =
      Response.runStarted "a" "Command started" ∧
    mapHas "a" ((step initState (Event.run "a" "x" false)).1).runningProcesses
      = true := by
  constructor
  · rfl
  · decide

/-- C2 amended: the run handler sends the execution id response before the
spawn and registers the spawned handle unconditionally; its behaviour is
identical whether or not the working directory is valid, so no LaunchError is
ever surfaced synchronously and an execution identity is always returned and
registered, even for a failed launch (spawn reports a bad working directory
only asynchronously, on an error event the handler does not subscribe to). -/
theorem claim_C2_run_registers_unconditionally :
    ∀ (s : ServerState) (i cmd : String) (v : Bool),
      (step s (Event.run i cmd v)).2 = Response.runStarted i "Command started" ∧
      mapHas i ((step s (Event.run i cmd v)).1).runningProcesses = true ∧
      step s (Event.run i cmd v) = step s (Event.run i cmd true) := by
  intro s i cmd v
  refine ⟨rfl, ?_, rfl⟩
  show (mapGet i (mapSet i ⟨false⟩ s.runningProcesses)).isSome = true
  rw [mapGet_set_self]
  rfl

/-- C3: Registration schedules a deferred cleanup at the fixed 5-minute
horizon (300000 ms after the current time), and once the horizon elapses the
timer fires: the id is gone from the registry, `list()` no longer shows it,
and the process either already reported killed or has now been sent the kill
signal — so an execution whose command outlives the horizon is no longer
present and no longer running. -/
theorem claim_C3_timeout_horizon :
    (∀ (s : ServerState) (i cmd : String) (v : Bool),
      (step s (Event.run i cmd v)).1.timers =
        s.timers ++ [(i, s.now + autoCleanupMs)]) ∧
    autoCleanupMs = 5 * 60 * 1000 ∧
    (∀ (s : ServerState) (d : Nat) (i : String) (dl : Nat),
      (i, dl) ∈ s.timers → dl ≤ s.now + d →
      mapHas i ((step s (Event.elapse d)).1).runningProcesses = false ∧
      (∀ st ∈ listProcesses (step s (Event.elapse d)).1, st.1 ≠ i) ∧
      (∀ p : ChildProcess, mapGet i s.runningProcesses = some p →
        p.killed = true ∨ i ∈ (step s (Event.elapse d)).1.killLog)) := by
  refine ⟨fun s i cmd v => rfl, rfl, ?_⟩
  intro s d i dl hmem hdl
  have hdue : (i, dl) ∈ s.timers.filter (fun tm => decide (tm.2 ≤ s.now + d)) :=
    List.mem_filter.mpr ⟨hmem, by simpa using hdl⟩
  have hkeys : i ∈
      (s.timers.filter (fun tm => decide (tm.2 ≤ s.now + d))).map Prod.fst :=
    List.mem_map.mpr ⟨(i, dl), hdue, rfl⟩
  have hstep : (step s (Event.elapse d)).1 =
      foldCleanup
        ((s.timers.filter (fun tm => decide (tm.2 ≤ s.now + d))).map Prod.fst)
        { s with now := s.now + d,
                 timers := s.timers.filter (fun tm => !decide (tm.2 ≤ s.now + d)) } :=
    rfl
  have hnone : mapGet i ((step s (Event.elapse d)).1).runningProcesses = none := by
    rw [hstep, foldCleanup_registry]
    apply mapGet_eq_none
    intro e he hei
    have hnot := (List.mem_filter.mp he).2
    simp only [decide_eq_true_eq] at hnot
    exact hnot (by rw [hei]; exact hkeys)
  refine ⟨by rw [mapHas, hnone]; rfl, ?_, ?_⟩
  · intro st hst hei
    rcases List.mem_map.mp hst with ⟨pr, hpr, hfe⟩
    rw [hstep, foldCleanup_registry] at hpr
    have hnot := (List.mem_filter.mp hpr).2
    simp only [decide_eq_true_eq] at hnot
    apply hnot
    have : pr.1 = i := by rw [← hfe] at hei; exact hei
    rw [this]
    exact hkeys
  · intro p hp
    by_cases hk : p.killed
    · left; exact hk
    · right
      rw [hstep]
      exact foldCleanup_kills _ _ hkeys hp (by simpa using hk)

/-- C3 witness: register "a" on the fresh server, then let the full 300000 ms
horizon elapse: "a" is gone from the registry and its process received the
kill signal. -/
theorem claim_C3_timeout_horizon_witness :
    mapHas "a" ((step ((step initState (Event.run "a" "x" true)).1)
      (Event.elapse 300000)).1).runningProcesses = false ∧
    "a" ∈ ((step ((step initState (Event.run "a" "x" true)).1)
      (Event.elapse 300000)).1).killLog := by
  have h := claim_C3_timeout_horizon.2.2 ((step initState (Event.run "a" "x" true)).1)
    300000 "a" 300000 (by decide) (by decide)
  refine ⟨h.1, ?_⟩
  rcases h.2.2 ⟨false⟩ (by decide) with h3 | h3
  · exact absurd h3 (by decide)
  · exact h3

/-- C4: On a shutdown signal the registry is swept: afterwards the registry is
empty (zero registered executions remain, for any number running at shutdown),
every handle that was registered has either already reported killed or is sent
the kill signal during the sweep, and the SIGINT handler only exits the host
after that sweep (the state in which `hostExited` holds already has the empty
registry). -/
theorem claim_C4_shutdown_sweep :
    (∀ s : ServerState, (step s Event.sigint).1.runningProcesses = [] ∧
      (step s Event.sigint).1.hostExited = true) ∧
    (∀ s : ServerState, (step s Event.sigterm).1.runningProcesses = []) ∧
    (∀ (s : ServerState) (i : String) (p : ChildProcess),
      mapGet i s.runningProcesses = some p →
      p.killed = true ∨ i ∈ (step s Event.sigterm).1.killLog) ∧
    (∀ (s : ServerState) (i : String) (p : ChildProcess),
      mapGet i s.runningProcesses = some p →
      p.killed = true ∨ i ∈ (step s Event.sigint).1.killLog) := by
  have hempty : ∀ s : ServerState,
      (foldCleanup (s.runningProcesses.map Prod.fst) s).runningProcesses = [] := by
    intro s
    rw [foldCleanup_registry]
    apply List.filter_eq_nil_iff.mpr
    intro e he
    simp only [decide_eq_true_eq]
    intro hno
    exact hno (List.mem_map_of_mem Prod.fst he)
  have hkill : ∀ (s : ServerState) (i : String) (p : ChildProcess),
      mapGet i s.runningProcesses = some p → p.killed = true ∨
        i ∈ (foldCleanup (s.runningProcesses.map Prod.fst) s).killLog := by
    intro s i p hp
    by_cases hk : p.killed
    · left; exact hk
    · right
      exact foldCleanup_kills _ _
        (List.mem_map.mpr ⟨(i, p), mapGet_mem hp, rfl⟩) hp (by simpa using hk)
  exact ⟨fun s => ⟨hempty s, rfl⟩, hempty, hkill, hkill⟩

/-- C4 witness: with two executions running, SIGINT leaves an empty registry,
the host exit flag set, and both processes killed. -/
theorem claim_C4_shutdown_sweep_witness :
    (step (steps initState [Event.run "a" "x" true, Event.run "b" "y" true])
      Event.sigint).1.runningProcesses = [] ∧
    (step (steps initState [Event.run "a" "x" true, Event.run "b" "y" true])
      Event.sigint).1.hostExited = true ∧
    "a" ∈ (step (steps initState [Event.run "a" "x" true, Event.run "b" "y" true])
      Event.sigint).1.killLog ∧
    "b" ∈ (step (steps initState [Event.run "a" "x" true, Event.run "b" "y" true])
      Event.sigint).1.killLog := by
  have h1 := claim_C4_shutdown_sweep.1
    (steps initState [Event.run "a" "x" true, Event.run "b" "y" true])
  have ha := claim_C4_shutdown_sweep.2.2.2
    (steps initState [Event.run "a" "x" true, Event.run "b" "y" true])
    "a" ⟨false⟩ (by decide)
  have hb := claim_C4_shutdown_sweep.2.2.2
    (steps initState [Event.run "a" "x" true, Event.run "b" "y" true])
    "b" ⟨false⟩ (by decide)
  refine ⟨h1.1, h1.2, ?_, ?_⟩
  · rcases ha with h | h
    · exact absurd h (by decide)
    · exact h
  · rcases hb with h | h
    · exact absurd h (by decide)
    · exact h

/-- C5: Every execution's lifecycle converges on removal and never returns to
Running: the close callback removes the id from the registry regardless of any
pending timeout or stop; a deferred timeout (or any cleanup) firing after
removal is a complete no-op; no event other than the run request minting the
id itself can ever put the id back; and along every trace from server start a
registered handle is never a zombie — every handle in the registry still
reports `killed = false` (a killed handle is deleted in the same cleanup). -/
theorem claim_C5_lifecycle_converges :
    (∀ (s : ServerState) (i : String) (code : Int),
      mapHas i ((step s (Event.close i code)).1).runningProcesses = false) ∧
    (∀ (s : ServerState) (i : String), mapHas i s.runningProcesses = false →
      cleanupProcess i s = s) ∧
    (∀ (s : ServerState) (i : String) (e : Event), isRunOf i e = false →
      mapHas i s.runningProcesses = false →
      mapHas i ((step s e).1).runningProcesses = false) ∧
    (∀ tr : List Event, ∀ pr ∈ (steps initState tr).runningProcesses,
      pr.2.killed = false) := by
  refine ⟨?_, fun s i h => cleanup_noop i s h, ?_, ?_⟩
  · intro s i code
    show mapHas i (cleanupProcess i s).runningProcesses = false
    rw [mapHas, cleanup_removes]
    rfl
  · intro s i e he h
    have hn : mapGet i s.runningProcesses = none := by
      rcases hg : mapGet i s.runningProcesses with _ | p
      · rfl
      · rw [mapHas, hg] at h; simp at h
    rw [mapHas, absent_step e he hn]
    rfl
  · intro tr
    exact RegInv_steps tr (fun pr hpr => absurd hpr (List.not_mem_nil pr))

/-- C5 witness: closing the only execution removes it; a cleanup on the absent
id is a no-op; a later stop event cannot resurrect it; and after a concrete
trace the registered handle is unkilled. -/
theorem claim_C5_lifecycle_converges_witness :
    mapHas "a" ((step ((step initState (Event.run "a" "x" true)).1)
      (Event.close "a" 0)).1).runningProcesses = false ∧
    cleanupProcess "a" initState = initState ∧
    mapHas "a" ((step initState (Event.stop "a")).1).runningProcesses = false ∧
    (("a", (⟨false⟩ : ChildProcess)) ∈
        (steps initState [Event.run "a" "x" true]).runningProcesses →
      (ChildProcess.mk false).killed = false) :=
  ⟨claim_C5_lifecycle_converges.1 ((step initState (Event.run "a" "x" true)).1)
      "a" 0,
    claim_C5_lifecycle_converges.2.1 initState "a" (by decide),
    claim_C5_lifecycle_converges.2.2.1 initState "a" (Event.stop "a") (by decide)
      (by decide),
    fun hm => claim_C5_lifecycle_converges.2.2.2 [Event.run "a" "x" true]
      ("a", ⟨false⟩) hm⟩

/-- C6: For every start request (any state, any working directory validity,
any command), the handler returns the freshly minted execution id, and an
immediately following `list()` — no intervening events on the single-threaded
event loop — includes that id with status `running`. -/
theorem claim_C6_start_then_list_running :
    ∀ (s : ServerState) (i cmd : String) (v : Bool),
      (step s (Event.run i cmd v)).2 = Response.runStarted i "Command started" ∧
      (step (step s (Event.run i cmd v)).1 Event.list).2 =
        Response.processList (listProcesses (step s (Event.run i cmd v)).1) ∧
      (i, "running") ∈ listProcesses (step s (Event.run i cmd v)).1 := by
  intro s i cmd v
  refine ⟨rfl, rfl, ?_⟩
  have hmem : (i, (⟨false⟩ : ChildProcess)) ∈
      (step s (Event.run i cmd v)).1.runningProcesses :=
    mem_mapSet_self i ⟨false⟩ s.runningProcesses
  have hmap := List.mem_map_of_mem (fun pr => (pr.1, statusOf pr.2)) hmem
  simpa [listProcesses, statusOf] using hmap

/-- C7: `list()` is a pure point-in-time snapshot: it mutates no state, its
entries are exactly every registered id paired with a status computed from the
stored handle's killed flag at query time (there is no separately cached
status field anywhere in the state), and its output depends on nothing but the
registry — two states agreeing on the registry produce the same listing. -/
theorem claim_C7_list_pure_snapshot :
    (∀ s : ServerState, (step s Event.list).1 = s) ∧
    (∀ s : ServerState, (step s Event.list).2 = Response.processList
      (s.runningProcesses.map (fun pr =>
        (pr.1, if pr.2.killed then "stopped" else "running")))) ∧
    (∀ s s' : ServerState, s.runningProcesses = s'.runningProcesses →
      (step s Event.list).2 = (step s' Event.list).2) := by
  refine ⟨fun s => rfl, fun s => rfl, ?_⟩
  intro s s' h
  show Response.processList (listProcesses s) =
    Response.processList (listProcesses s')
  unfold listProcesses
  rw [h]

/-- C7 witness: two states with the same registry but different clocks, kill
logs and accumulators produce the same listing, and listing the fresh server
changes nothing. -/
theorem claim_C7_list_pure_snapshot_witness :
    (step initState Event.list).1 = initState ∧
    (step initState Event.list).2 =
      (step { initState with now := 5, killLog := ["z"] } Event.list).2 :=
  ⟨claim_C7_list_pure_snapshot.1 initState,
    claim_C7_list_pure_snapshot.2.2 initState
      { initState with now := 5, killLog := ["z"] } rfl⟩

/-- C8 counterexample: at the concrete input — fresh server, execution "a"
spawned, then exiting with code 1 — no `failed` outcome is observable through
the status interface: the close callback is silent and the listing afterwards
is empty, so in particular it does not contain ("a", "failed"). The code
records no `failed` status anywhere; it deletes the entry. -/
theorem claim_C8_counterexample :
    (step ((step initState (Event.run "a" "x" true)).1) (Event.close "a" 1)).2 =
      Response.silent ∧
    listProcesses ((step ((step initState (Event.run "a" "x" true)).1)
      (Event.close "a" 1)).1) = [] ∧
    ("a", "failed") ∉ listProcesses ((step ((step initState
      (Event.run "a" "x" true)).1) (Event.close "a" 1)).1) := by
  refine ⟨rfl, by decide, by decide⟩

/-- C8 amended: a non-zero exit is never propagated to any caller as an
exception or error of the core — the close callback produces no response; but
no `failed` status is recorded either: the handler removes the entry from the
registry and only appends the exit code and accumulated output to the server's
own log, so the execution simply disappears from the status interface, whose
derived statuses are only ever `running` or `stopped`. -/
theorem claim_C8_nonzero_exit_silent :
    (∀ (s : ServerState) (i : String) (code : Int),
      (step s (Event.close i code)).2 = Response.silent) ∧
    (∀ (s : ServerState) (i : String) (code : Int),
      mapHas i ((step s (Event.close i code)).1).runningProcesses = false) ∧
    (∀ (s : ServerState) (i : String) (code : Int), ∃ en : CloseLogEntry,
      (step s (Event.close i code)).1.serverLog = s.serverLog ++ [en] ∧
      en.execId = i ∧ en.exitCode = code) ∧
    (∀ s : ServerState, ∀ st ∈ listProcesses s,
      st.2 = "running" ∨ st.2 = "stopped") := by
  refine ⟨fun s i code => rfl, ?_, ?_, ?_⟩
  · intro s i code
    show mapHas i (cleanupProcess i s).runningProcesses = false
    rw [mapHas, cleanup_removes]
    rfl
  · intro s i code
    refine ⟨⟨i, code, ((mapGet i s.outputs).getD ("", "")).1,
      ((mapGet i s.outputs).getD ("", "")).2⟩, ?_, rfl, rfl⟩
    show (cleanupProcess i s).serverLog ++ _ = s.serverLog ++ _
    rw [cleanup_serverLog]
  · intro s st hst
    rcases List.mem_map.mp hst with ⟨pr, _, hfe⟩
    rw [← hfe]
    by_cases hk : pr.2.killed
    · right
      simp [statusOf, hk]
    · left
      simp [statusOf, hk]

/-- C8 witness: the status derived for a concrete running execution is one of
`running`/`stopped` (never `failed`). -/
theorem claim_C8_nonzero_exit_silent_witness :
    ("a", "running").2 = "running" ∨ ("a", "running").2 = "stopped" :=
  claim_C8_nonzero_exit_silent.2.2.2
    ((step initState (Event.run "a" "x" true)).1) ("a", "running") (by decide)

/-- C9: The stdout/stderr accumulators are append-only and mutated only by the
stream callbacks: a stdout chunk extends the accumulator on the right, every
event that is not the spawn, a stream callback or the close of that execution
leaves the accumulator untouched, a sequence of chunks accumulates to their
in-order concatenation, and in the concrete scenario (run, stream "done\n",
complete) the stdout accumulated at completion equals "done\n". -/
theorem claim_C9_output_append_only :
    (∀ (s : ServerState) (i c o er : String),
      mapGet i s.outputs = some (o, er) →
      mapGet i ((step s (Event.stdoutData i c)).1).outputs = some (o ++ c, er)) ∧
    (∀ (s : ServerState) (i : String) (e : Event), touchesOutputs i e = false →
      mapGet i ((step s e).1).outputs = mapGet i s.outputs) ∧
    (∀ (s : ServerState) (i : String) (cs : List String) (o er : String),
      mapGet i s.outputs = some (o, er) →
      mapGet i ((steps s (cs.map (fun c => Event.stdoutData i c))).outputs) =
        some (cs.foldl (fun a b => a ++ b) o, er)) ∧
    (steps initState [Event.run "a" "sleep 1 && echo done" true,
        Event.stdoutData "a" "done\n", Event.close "a" 0]).serverLog =
      [⟨"a", 0, "done\n", ""⟩] := by
  refine ⟨fun s i c o er hg => stdout_append hg,
    fun s i e he => outputs_untouched e he,
    fun s i cs o er hg => stdout_chunks cs s o er hg, ?_⟩
  decide

/-- C9 witness: appending a concrete chunk extends a concrete accumulator, and
two chunks accumulate in order. -/
theorem claim_C9_output_append_only_witness :
    mapGet "a" ((step { initState with outputs := [("a", ("lo", "er"))] }
      (Event.stdoutData "a" "g")).1).outputs = some ("lo" ++ "g", "er") ∧
    mapGet "a" ((steps { initState with outputs := [("a", ("", ""))] }
      (["x", "y"].map (fun c => Event.stdoutData "a" c))).outputs) =
      some (["x", "y"].foldl (fun a b => a ++ b) "", "") :=
  ⟨claim_C9_output_append_only.1
      { initState with outputs := [("a", ("lo", "er"))] } "a" "g" "lo" "er"
      (by decide),
    claim_C9_output_append_only.2.2.1
      { initState with outputs := [("a", ("", ""))] } "a" ["x", "y"] "" ""
      (by decide)⟩

/-- C10: No boundary operation ever returns accumulated stdout or stderr:
start responds only with the id and a message, stop only with an
acknowledgement message, list only with (id, status) pairs; every response is
completely independent of the output accumulators; and on process close the
accumulated output is written to the server's own log and the accumulator
discarded. -/
theorem claim_C10_no_output_exposure :
    (∀ (s : ServerState) (i cmd : String) (v : Bool),
      (step s (Event.run i cmd v)).2 = Response.runStarted i "Command started") ∧
    (∀ (s : ServerState) (i : String),
      (step s (Event.stop i)).2 = Response.stopAck "Process stopped") ∧
    (∀ s : ServerState, (step s Event.list).2 = Response.processList
      (s.runningProcesses.map (fun pr => (pr.1, statusOf pr.2)))) ∧
    (∀ (s : ServerState) (os : List (String × (String × String))) (e : Event),
      (step { s with outputs := os } e).2 = (step s e).2) ∧
    (∀ (s : ServerState) (i : String) (code : Int) (o er : String),
      mapGet i s.outputs = some (o, er) →
      (step s (Event.close i code)).1.serverLog =
        s.serverLog ++ [⟨i, code, o, er⟩] ∧
      mapGet i ((step s (Event.close i code)).1).outputs = none) := by
  refine ⟨fun s i cmd v => rfl, fun s i => rfl, fun s => rfl, ?_, ?_⟩
  · intro s os e
    cases e with
    | stdoutData j c =>
        rcases h1 : mapGet j os with _ | oe1 <;>
          rcases h2 : mapGet j s.outputs with _ | oe2 <;>
            simp [step, h1, h2]
    | stderrData j c =>
        rcases h1 : mapGet j os with _ | oe1 <;>
          rcases h2 : mapGet j s.outputs with _ | oe2 <;>
            simp [step, h1, h2]
    | _ => rfl
  · intro s i code o er hg
    constructor
    · show (cleanupProcess i s).serverLog ++
          [⟨i, code, ((mapGet i s.outputs).getD ("", "")).1,
            ((mapGet i s.outputs).getD ("", "")).2⟩] =
        s.serverLog ++ [⟨i, code, o, er⟩]
      rw [cleanup_serverLog, hg]
      rfl
    · show mapGet i (mapDelete i (cleanupProcess i s).outputs) = none
      exact mapGet_delete_self i (cleanupProcess i s).outputs

/-- C10 witness: closing a concrete execution logs its accumulated output to
the server log and discards the accumulator. -/
theorem claim_C10_no_output_exposure_witness :
    (step { initState with outputs := [("a", ("o1", "e1"))] }
      (Event.close "a" 2)).1.serverLog = [⟨"a", 2, "o1", "e1"⟩] ∧
    mapGet "a" ((step { initState with outputs := [("a", ("o1", "e1"))] }
      (Event.close "a" 2)).1).outputs = none := by
  have h := claim_C10_no_output_exposure.2.2.2.2
    { initState with outputs := [("a", ("o1", "e1"))] } "a" 2 "o1" "e1"
    (by decide)
  exact ⟨by rw [h.1]; rfl, h.2⟩
